import Mathlib

/-!
# Verification of the bucky stochastic-simulation core

Shallow embedding, in Lean 4, of the parts of the `bucky` epidemic-model
repository that the specification's claims are about:

* `bucky/model/state.py` — compartment layout (`buckyState.__init__`),
  `init_S`, `validate_state`;
* `bucky/config.py` — `BuckyConfig.sample_distributions` and its passes;
* `bucky/graph.py` — `rolling_mean`, `rolling_arithmetic_mean`,
  `rolling_geometric_mean`;
* `bucky/model/data.py` — `buckyData.sum_adm1` (scatter-add reduction).

Machine floats are modelled as exact numbers (`ℚ` where decidability is
wanted, `ℝ` where `exp`/`log` are needed); `numpy.around` is modelled as
exact round-half-to-even.  Fallible operations return `Except`.
-/

namespace Bucky

/-! ## Compartment layout (`bucky/model/state.py`, `buckyState.__init__`) -/

/-- The constants record consumed by `buckyState.__init__`: the three Erlang
shape parameters read from `consts["E_gamma_k"]`, `consts["I_gamma_k"]`,
`consts["Rh_gamma_k"]`. -/
structure Consts where
  E_gamma_k : ℕ
  I_gamma_k : ℕ
  Rh_gamma_k : ℕ

/-- The ordered bin-count table built by the two loops and two assignments in
`buckyState.__init__` (Python dicts preserve insertion order):
`S R D incH incC` one bin each, `I Ic Ia` each `I_gamma_k` bins, `E`
`E_gamma_k` bins, `Rh` `Rh_gamma_k` bins. -/
def bin_counts (c : Consts) : List (String × ℕ) :=
  [("S", 1), ("R", 1), ("D", 1), ("incH", 1), ("incC", 1),
   ("I", c.I_gamma_k), ("Ic", c.I_gamma_k), ("Ia", c.I_gamma_k),
   ("E", c.E_gamma_k), ("Rh", c.Rh_gamma_k)]

/-- The slice-building loop of `buckyState.__init__`: walk the bin-count
table accumulating `current_index`, assigning each compartment the slice
`(current_index, current_index + nbins)` (Python `slice(start, stop)`). -/
def mkIndices : ℕ → List (String × ℕ) → List (String × (ℕ × ℕ))
  | _, [] => []
  | cur, (name, nbins) :: rest => (name, (cur, cur + nbins)) :: mkIndices (cur + nbins) rest

/-- `indices` of a `buckyState`: the per-compartment slices, starting from 0. -/
def indices (c : Consts) : List (String × (ℕ × ℕ)) :=
  mkIndices 0 (bin_counts c)

/-- `xp.r_[slice]`: the explicit index list of a slice (step 1). -/
def sliceList (p : ℕ × ℕ) : List ℕ :=
  List.range' p.1 (p.2 - p.1)

/-- `self.n_compartments = sum(bin_counts.values())`. -/
def n_compartments (c : Consts) : ℕ :=
  ((bin_counts c).map Prod.snd).sum

/-- Python's substring test `pat in s`. -/
def strContains (s pat : String) : Bool :=
  decide (pat.toList <:+: s.toList)

/-- `indices["N"]`: concatenated index lists of every compartment whose name
does not contain `"inc"` (the conserved-population group). -/
def N_indices (c : Consts) : List ℕ :=
  (((indices c).filter (fun p => ¬ strContains p.1 "inc")).map (fun p => sliceList p.2)).flatten

/-- `indices["Itot"]`: concatenated indices of `I`, `Ia`, `Ic` (in layout order). -/
def Itot_indices (c : Consts) : List ℕ :=
  (((indices c).filter (fun p => p.1 = "I" ∨ p.1 = "Ia" ∨ p.1 = "Ic")).map
    (fun p => sliceList p.2)).flatten

/-- Slice lengths recorded by `mkIndices` agree with the requested bin counts. -/
theorem mkIndices_lengths (l : List (String × ℕ)) (s : ℕ) :
    (mkIndices s l).map (fun p => (p.1, p.2.2 - p.2.1)) = l := by
  induction l generalizing s with
  | nil => rfl
  | cons hd tl ih => simp [mkIndices, ih]

/-- The concatenation, in layout order, of the slices built by `mkIndices`
is the contiguous range starting at the initial index. -/
theorem mkIndices_join (l : List (String × ℕ)) (s : ℕ) :
    ((mkIndices s l).map (fun p => sliceList p.2)).flatten =
      List.range' s ((l.map Prod.snd).sum) := by
  induction l generalizing s with
  | nil => rfl
  | cons hd tl ih =>
    obtain ⟨k, n⟩ := hd
    simp only [mkIndices, List.map_cons, List.flatten_cons, ih, List.sum_cons]
    rw [show sliceList (s, s + n) = List.range' s n by
        simp [sliceList, Nat.add_sub_cancel_left]]
    rw [Nat.add_comm n]
    exact List.range'_append_1 ..

/-- C1: for every constants record with positive Erlang shape parameters, the
compartment layout assigns each compartment a slice whose length equals its
bin count (S, R, D, incH, incC one bin, I/Ic/Ia `I_gamma_k` bins, E
`E_gamma_k` bins, Rh `Rh_gamma_k` bins), and the slices are contiguous, in
order, with union exactly `[0, total_bins)` (no gaps, no overlaps); with
`E_gamma_k = 2, I_gamma_k = 3, Rh_gamma_k = 1` the total is 17 bins and the
conserved group `N` (everything except `incH`, `incC`) has 15 indices. -/
theorem C1_layout_partition (c : Consts)
    (_hE : 0 < c.E_gamma_k) (_hI : 0 < c.I_gamma_k) (_hRh : 0 < c.Rh_gamma_k) :
    ((indices c).map (fun p => (p.1, p.2.2 - p.2.1)) = bin_counts c) ∧
    (((indices c).map (fun p => sliceList p.2)).flatten = List.range (n_compartments c)) ∧
    n_compartments ⟨2, 3, 1⟩ = 17 ∧ (N_indices ⟨2, 3, 1⟩).length = 15 := by
  refine ⟨mkIndices_lengths _ _, ?_, by decide, by decide⟩
  rw [indices, mkIndices_join, List.range_eq_range', n_compartments]

/-- Witness for C1 at the spec's example constants `(2, 3, 1)`. -/
theorem C1_layout_partition_witness :
    (0 < (2:ℕ) ∧ 0 < (3:ℕ) ∧ 0 < (1:ℕ)) ∧
    (((indices ⟨2, 3, 1⟩).map (fun p => (p.1, p.2.2 - p.2.1)) = bin_counts ⟨2, 3, 1⟩) ∧
     (((indices ⟨2, 3, 1⟩).map (fun p => sliceList p.2)).flatten =
        List.range (n_compartments ⟨2, 3, 1⟩)) ∧
     n_compartments ⟨2, 3, 1⟩ = 17 ∧ (N_indices ⟨2, 3, 1⟩).length = 15) :=
  ⟨by decide, C1_layout_partition ⟨2, 3, 1⟩ (by decide) (by decide) (by decide)⟩

/-- The layout, written out: each compartment's slice with its explicit
start/stop, in insertion order. -/
theorem indices_eq (c : Consts) : indices c =
    [("S", (0, 1)), ("R", (1, 2)), ("D", (2, 3)), ("incH", (3, 4)), ("incC", (4, 5)),
     ("I", (5, 5 + c.I_gamma_k)),
     ("Ic", (5 + c.I_gamma_k, 5 + c.I_gamma_k + c.I_gamma_k)),
     ("Ia", (5 + c.I_gamma_k + c.I_gamma_k,
             5 + c.I_gamma_k + c.I_gamma_k + c.I_gamma_k)),
     ("E", (5 + c.I_gamma_k + c.I_gamma_k + c.I_gamma_k,
            5 + c.I_gamma_k + c.I_gamma_k + c.I_gamma_k + c.E_gamma_k)),
     ("Rh", (5 + c.I_gamma_k + c.I_gamma_k + c.I_gamma_k + c.E_gamma_k,
             5 + c.I_gamma_k + c.I_gamma_k + c.I_gamma_k + c.E_gamma_k + c.Rh_gamma_k))] := by
  simp [indices, bin_counts, mkIndices]

/-- The conserved group `N`, written out: all indices except those of the
incidence compartments `incH` (bin 3) and `incC` (bin 4). -/
theorem N_indices_eq (c : Consts) : N_indices c =
    0 :: 1 :: 2 :: (List.range' 5 c.I_gamma_k ++
      (List.range' (5 + c.I_gamma_k) c.I_gamma_k ++
        (List.range' (5 + c.I_gamma_k + c.I_gamma_k) c.I_gamma_k ++
          (List.range' (5 + c.I_gamma_k + c.I_gamma_k + c.I_gamma_k) c.E_gamma_k ++
            List.range' (5 + c.I_gamma_k + c.I_gamma_k + c.I_gamma_k + c.E_gamma_k)
              c.Rh_gamma_k)))) := by
  have hS : strContains "S" "inc" = false := by decide
  have hR : strContains "R" "inc" = false := by decide
  have hD : strContains "D" "inc" = false := by decide
  have hincH : strContains "incH" "inc" = true := by decide
  have hincC : strContains "incC" "inc" = true := by decide
  have hI : strContains "I" "inc" = false := by decide
  have hIc : strContains "Ic" "inc" = false := by decide
  have hIa : strContains "Ia" "inc" = false := by decide
  have hE : strContains "E" "inc" = false := by decide
  have hRh : strContains "Rh" "inc" = false := by decide
  rw [N_indices, indices_eq]
  simp [List.filter, hS, hR, hD, hincH, hincC, hI, hIc, hIa, hE, hRh, sliceList,
    Nat.add_sub_cancel_left, List.range'_one]

/-! ## State vector and `init_S` (`bucky/model/state.py`) -/

/-- Exact-arithmetic model of the state array `self.state`: entry at
(compartment bin, age group, region node). -/
def StQ : Type := ℕ → ℕ → ℕ → ℚ

/-- Slice assignment `self.state[slice] = x` where the assigned value may
depend on (age, node) and is broadcast across the slice's bins. -/
def setSlice (st : StQ) (p : ℕ × ℕ) (f : ℕ → ℕ → ℚ) : StQ :=
  fun i a j => if p.1 ≤ i ∧ i < p.2 then f a j else st i a j

/-- Lookup of a compartment's slice in the layout (Python
`self.indices[name]`; `(0, 0)` default is never hit for layout names). -/
def sliceOf (c : Consts) (name : String) : ℕ × ℕ :=
  (((indices c).find? (fun p => p.1 = name)).map Prod.snd).getD (0, 0)

/-- `xp.sum(self.N, axis=0)` at one (age, node): sum of the state over the
conserved-population index group. -/
def sumN (c : Consts) (st : StQ) (a j : ℕ) : ℚ :=
  ((N_indices c).map (fun i => st i a j)).sum

/-- `buckyState.init_S`: `self.S = 0.0` then `self.S = 1.0 - xp.sum(self.N, axis=0)`. -/
def init_S (c : Consts) (st : StQ) : StQ :=
  let st1 := setSlice st (sliceOf c "S") (fun _ _ => 0)
  setSlice st1 (sliceOf c "S") (fun a j => 1 - sumN c st1 a j)

/-- The `S` compartment is the single bin 0. -/
theorem sliceOf_S (c : Consts) : sliceOf c "S" = (0, 1) := by
  rw [sliceOf, indices_eq]
  rfl

/-- C2: for every constants record and every state vector, whatever the
non-`S` conserved compartments hold, after `init_S()` the conserved-group sum
is exactly 1 for every age group and region (`S` is set to 1 minus the sum of
all other conserved compartments there). -/
theorem C2_init_S_conserves (c : Consts) (st : StQ) (a j : ℕ) :
    sumN c (init_S c st) a j = 1 := by
  have hrest : ∀ i ∈ (N_indices c).tail, 1 ≤ i := by
    rw [N_indices_eq]
    intro i hi
    simp only [List.tail_cons, List.mem_cons, List.mem_append, List.mem_range'_1] at hi
    omega
  have hsplit : N_indices c = 0 :: (N_indices c).tail := by rw [N_indices_eq]; rfl
  rw [init_S]
  rw [sumN, hsplit]
  simp only [List.map_cons, List.sum_cons]
  have h0 : setSlice (setSlice st (sliceOf c "S") fun _ _ => 0) (sliceOf c "S")
      (fun a j => 1 - sumN c (setSlice st (sliceOf c "S") fun _ _ => 0) a j) 0 a j =
      1 - sumN c (setSlice st (sliceOf c "S") fun _ _ => 0) a j := by
    rw [sliceOf_S]
    simp [setSlice]
  have htl : ∀ i ∈ (N_indices c).tail,
      setSlice (setSlice st (sliceOf c "S") fun _ _ => 0) (sliceOf c "S")
        (fun a j => 1 - sumN c (setSlice st (sliceOf c "S") fun _ _ => 0) a j) i a j =
      setSlice st (sliceOf c "S") (fun _ _ => 0) i a j := by
    intro i hi
    have h1 := hrest i hi
    rw [sliceOf_S]
    simp only [setSlice]
    rw [if_neg (by omega)]
  rw [List.map_congr_left htl, h0]
  have hsum1 : sumN c (setSlice st (sliceOf c "S") fun _ _ => 0) a j =
      0 + ((N_indices c).tail.map
        (fun i => setSlice st (sliceOf c "S") (fun _ _ => 0) i a j)).sum := by
    rw [sumN, hsplit]
    simp only [List.map_cons, List.sum_cons]
    rw [sliceOf_S]
    simp [setSlice]
  rw [hsum1]
  ring

/-! ## `validate_state` (`bucky/model/state.py`)

State entries here carry the IEEE special values, since the first check is a
finiteness scan.  `numpy.around` is modelled as exact round-half-to-even
(numpy's documented rounding mode).  All three `raise` sites in
`validate_state` raise the same `StateValidationException` class (imported
from `bucky.model.exceptions`), so the embedded error type has a single
value. -/

/-- A floating-point state entry: a finite (exact) value or an IEEE special. -/
inductive FVal where
  | fin (q : ℚ)
  | nan
  | inf
  | ninf
deriving DecidableEq

/-- `xp.isfinite`. -/
def FVal.isFinite : FVal → Bool
  | .fin _ => true
  | _ => false

/-- The rational reading of a finite entry (only consulted after the
finiteness check has passed; 0 on the unreachable non-finite cases). -/
def FVal.toQ : FVal → ℚ
  | .fin q => q
  | _ => 0

/-- State array with floating-point entries. -/
def StF : Type := ℕ → ℕ → ℕ → FVal

/-- Round to the nearest integer, ties to even (the rounding numpy's
`around` applies after scaling). -/
def roundHalfEven (y : ℚ) : ℤ :=
  if y - ⌊y⌋ < 1/2 then ⌊y⌋
  else if 1/2 < y - ⌊y⌋ then ⌊y⌋ + 1
  else if Even ⌊y⌋ then ⌊y⌋ else ⌊y⌋ + 1

/-- `xp.around(y, d)`: scale by `10^d`, round half to even, scale back. -/
def around (y : ℚ) (d : ℕ) : ℚ :=
  (roundHalfEven (y * 10 ^ d) : ℚ) / 10 ^ d

/-- The single exception class raised by every check in `validate_state`. -/
inductive StateValidationException where
  | mk
deriving DecidableEq

/-- `xp.sum(self.N, axis=0)` of a floating-point state at one (age, node). -/
def sumN_F (c : Consts) (st : StF) (a j : ℕ) : ℚ :=
  ((N_indices c).map (fun i => (st i a j).toQ)).sum

/-- `buckyState.validate_state`: finiteness scan, then conserved-sum check
(`around(sum, 2) == 1`), then nonnegativity check (`around(entry, 4) >= 0`),
each raising `StateValidationException`. -/
def validate_state (c : Consts) (nA nJ : ℕ) (st : StF) :
    Except StateValidationException Unit :=
  if ∃ i ∈ List.range (n_compartments c), ∃ a ∈ List.range nA, ∃ j ∈ List.range nJ,
      (st i a j).isFinite = false then .error .mk
  else if ∃ a ∈ List.range nA, ∃ j ∈ List.range nJ,
      ¬ around (sumN_F c st a j) 2 = 1 then .error .mk
  else if ∃ i ∈ List.range (n_compartments c), ∃ a ∈ List.range nA, ∃ j ∈ List.range nJ,
      ¬ 0 ≤ around ((st i a j).toQ) 4 then .error .mk
  else .ok ()

/-- Round-half-even is nonnegative exactly on `[-1/2, ∞)` (the tie `-1/2`
rounds to the even integer 0). -/
theorem roundHalfEven_nonneg_iff (y : ℚ) : 0 ≤ roundHalfEven y ↔ -(1/2) ≤ y := by
  have hf1 : (⌊y⌋ : ℚ) ≤ y := Int.floor_le y
  have hf2 : y < ⌊y⌋ + 1 := Int.lt_floor_add_one y
  rw [roundHalfEven]
  split_ifs with h1 h2 h3
  · constructor
    · intro h
      have : (0 : ℚ) ≤ ⌊y⌋ := by exact_mod_cast h
      linarith
    · intro h
      have : (-1 : ℚ) < ⌊y⌋ := by linarith
      have : (-1 : ℤ) < ⌊y⌋ := by exact_mod_cast this
      omega
  · constructor
    · intro h
      have : (-1 : ℚ) ≤ ⌊y⌋ := by exact_mod_cast (by omega : (-1 : ℤ) ≤ ⌊y⌋)
      linarith
    · intro h
      have : (-3/2 : ℚ) < ⌊y⌋ := by linarith
      have : (-2 : ℤ) < ⌊y⌋ := by
        by_contra hc
        push_neg at hc
        have : (⌊y⌋ : ℚ) ≤ -2 := by exact_mod_cast hc
        linarith
      omega
  · constructor
    · intro h
      have : (0 : ℚ) ≤ ⌊y⌋ := by exact_mod_cast h
      linarith
    · intro h
      have hy : y - ⌊y⌋ = 1/2 := by linarith
      have : (-1 : ℚ) ≤ ⌊y⌋ := by linarith
      have h1' : (-1 : ℤ) ≤ ⌊y⌋ := by exact_mod_cast this
      rcases h3 with ⟨k, hk⟩
      omega
  · constructor
    · intro h
      have : (-1 : ℚ) ≤ ⌊y⌋ := by exact_mod_cast (by omega : (-1 : ℤ) ≤ ⌊y⌋)
      linarith
    · intro h
      have : (-3/2 : ℚ) < ⌊y⌋ := by linarith
      have : (-2 : ℤ) < ⌊y⌋ := by
        by_contra hc
        push_neg at hc
        have : (⌊y⌋ : ℚ) ≤ -2 := by exact_mod_cast hc
        linarith
      omega

/-- Round-half-even hits the even integer 100 exactly on `[99.5, 100.5]`
(both ties round towards 100). -/
theorem roundHalfEven_eq_hundred_iff (y : ℚ) :
    roundHalfEven y = 100 ↔ 199/2 ≤ y ∧ y ≤ 201/2 := by
  have hf1 : (⌊y⌋ : ℚ) ≤ y := Int.floor_le y
  have hf2 : y < ⌊y⌋ + 1 := Int.lt_floor_add_one y
  rw [roundHalfEven]
  split_ifs with h1 h2 h3
  · constructor
    · intro h
      rw [h] at hf1 hf2 h1
      push_cast at hf1 hf2 h1
      constructor <;> linarith
    · intro ⟨ha, hb⟩
      have h100 : ⌊y⌋ = 100 := by
        have hlow : (99 : ℚ) < ⌊y⌋ := by linarith
        have hhigh : (⌊y⌋ : ℚ) ≤ y := hf1
        have hlow' : (99 : ℤ) < ⌊y⌋ := by exact_mod_cast hlow
        have : (⌊y⌋ : ℚ) < 101 := by linarith
        have hhigh' : ⌊y⌋ < (101 : ℤ) := by exact_mod_cast this
        omega
      exact h100
  · constructor
    · intro h
      have h99 : ⌊y⌋ = 99 := by omega
      rw [h99] at hf1 hf2 h2
      push_cast at hf1 hf2 h2
      constructor <;> linarith
    · intro ⟨ha, hb⟩
      have h99 : ⌊y⌋ = 99 := by
        have hlow : (98 : ℚ) < ⌊y⌋ := by linarith
        have hlow' : (98 : ℤ) < ⌊y⌋ := by exact_mod_cast hlow
        have : (⌊y⌋ : ℚ) < 100 := by linarith
        have hhigh' : ⌊y⌋ < (100 : ℤ) := by exact_mod_cast this
        omega
      omega
  · have hy : y - ⌊y⌋ = 1/2 := by linarith
    constructor
    · intro h
      rw [h] at hy
      push_cast at hy
      constructor <;> linarith
    · intro ⟨ha, hb⟩
      have hlow : (99 : ℚ) ≤ ⌊y⌋ := by linarith
      have hhigh : (⌊y⌋ : ℚ) ≤ 100 := by linarith
      have hlow' : (99 : ℤ) ≤ ⌊y⌋ := by exact_mod_cast hlow
      have hhigh' : ⌊y⌋ ≤ (100 : ℤ) := by exact_mod_cast hhigh
      rcases h3 with ⟨k, hk⟩
      omega
  · have hy : y - ⌊y⌋ = 1/2 := by linarith
    constructor
    · intro h
      have h99 : ⌊y⌋ = 99 := by omega
      rw [h99] at hy
      push_cast at hy
      constructor <;> linarith
    · intro ⟨ha, hb⟩
      have h99 : ⌊y⌋ = 99 ∨ ⌊y⌋ = 100 := by
        have hlow : (99 : ℚ) ≤ ⌊y⌋ := by linarith
        have hhigh : (⌊y⌋ : ℚ) ≤ 100 := by linarith
        have hlow' : (99 : ℤ) ≤ ⌊y⌋ := by exact_mod_cast hlow
        have hhigh' : ⌊y⌋ ≤ (100 : ℤ) := by exact_mod_cast hhigh
        omega
      rcases h99 with h99 | h99
      · omega
      · exfalso
        exact h3 ⟨50, by omega⟩

/-- `around(q, 4) ≥ 0` holds exactly for `q ≥ -5e-5` (not `-1e-4`): the
scaled tie `-0.5` rounds to even 0. -/
theorem around_four_nonneg_iff (q : ℚ) : 0 ≤ around q 4 ↔ -(1/20000) ≤ q := by
  rw [around]
  rw [div_nonneg_iff]
  constructor
  · rintro (⟨h, _⟩ | ⟨_, h⟩)
    · have h0 : (0 : ℤ) ≤ roundHalfEven (q * 10 ^ 4) := by exact_mod_cast h
      have := (roundHalfEven_nonneg_iff (q * 10 ^ 4)).mp h0
      nlinarith
    · norm_num at h
  · intro h
    left
    constructor
    · have : -(1/2 : ℚ) ≤ q * 10 ^ 4 := by nlinarith
      have := (roundHalfEven_nonneg_iff (q * 10 ^ 4)).mpr this
      exact_mod_cast this
    · norm_num

/-- `around(s, 2) = 1` holds exactly for `|s - 1| ≤ 1/200` (tolerance 5e-3
with ties included, not 1e-2). -/
theorem around_two_eq_one_iff (s : ℚ) : around s 2 = 1 ↔ |s - 1| ≤ 1/200 := by
  rw [around, div_eq_one_iff_eq (by norm_num)]
  have : ((roundHalfEven (s * 10 ^ 2) : ℚ) = 10 ^ 2) ↔ roundHalfEven (s * 10 ^ 2) = 100 := by
    constructor
    · intro h; exact_mod_cast h
    · intro h; rw [h]; norm_num
  rw [this, roundHalfEven_eq_hundred_iff, abs_le]
  constructor <;> intro ⟨h1, h2⟩ <;> constructor <;> nlinarith

/-- Specification-level characterization of a passing `validate_state`: all
entries finite, all conserved sums within 5e-3 of 1 (round-half-even at two
decimals), all entries at least -5e-5 (round-half-even at four decimals). -/
theorem validate_state_ok_iff (c : Consts) (nA nJ : ℕ) (st : StF) :
    validate_state c nA nJ st = .ok () ↔
      ((∀ i < n_compartments c, ∀ a < nA, ∀ j < nJ, (st i a j).isFinite = true) ∧
       (∀ a < nA, ∀ j < nJ, |sumN_F c st a j - 1| ≤ 1/200) ∧
       (∀ i < n_compartments c, ∀ a < nA, ∀ j < nJ, -(1/20000) ≤ (st i a j).toQ)) := by
  rw [validate_state]
  split_ifs with h1 h2 h3
  · refine iff_of_false (by simp) ?_
    rintro ⟨hA, _, _⟩
    obtain ⟨i, hi, a, ha, j, hj, hP⟩ := h1
    rw [List.mem_range] at hi ha hj
    exact absurd (hA i hi a ha j hj) (by simp [hP])
  · refine iff_of_false (by simp) ?_
    rintro ⟨_, hB, _⟩
    obtain ⟨a, ha, j, hj, hP⟩ := h2
    rw [List.mem_range] at ha hj
    exact hP ((around_two_eq_one_iff _).mpr (hB a ha j hj))
  · refine iff_of_false (by simp) ?_
    rintro ⟨_, _, hC⟩
    obtain ⟨i, hi, a, ha, j, hj, hP⟩ := h3
    rw [List.mem_range] at hi ha hj
    exact hP ((around_four_nonneg_iff _).mpr (hC i hi a ha j hj))
  · push_neg at h1 h2 h3
    refine iff_of_true rfl ⟨?_, ?_, ?_⟩
    · intro i hi a ha j hj
      have := h1 i (List.mem_range.mpr hi) a (List.mem_range.mpr ha) j (List.mem_range.mpr hj)
      simpa using this
    · intro a ha j hj
      have := h2 a (List.mem_range.mpr ha) j (List.mem_range.mpr hj)
      exact (around_two_eq_one_iff _).mp this
    · intro i hi a ha j hj
      have := h3 i (List.mem_range.mpr hi) a (List.mem_range.mpr ha) j (List.mem_range.mpr hj)
      exact (around_four_nonneg_iff _).mp this

/-- `validate_state` either succeeds or raises the one and only
`StateValidationException` value. -/
theorem validate_state_cases (c : Consts) (nA nJ : ℕ) (st : StF) :
    validate_state c nA nJ st = .ok () ∨
      validate_state c nA nJ st = .error .mk := by
  rw [validate_state]
  split_ifs <;> simp

/-- Every failing `validate_state` raises the same exception value. -/
theorem validate_state_error_of_not_ok (c : Consts) (nA nJ : ℕ) (st : StF)
    (h : ¬ validate_state c nA nJ st = .ok ()) :
    validate_state c nA nJ st = .error .mk :=
  (validate_state_cases c nA nJ st).resolve_left h

/-- Constants (1, 1, 1) used for the concrete validation states: 10 bins. -/
def cVal : Consts := ⟨1, 1, 1⟩

/-- A state whose every entry is NaN. -/
def stNonfinite : StF := fun _ _ _ => FVal.nan

/-- An all-zero (finite) state: conserved sums are 0, not 1. -/
def stBadN : StF := fun _ _ _ => FVal.fin 0

/-- A finite state with conserved sums rounding to 1 and one entry equal to
-8e-5: negative beyond the code's -5e-5 rounding threshold but *not* below
the claim's -1e-4. -/
def stNegTiny : StF := fun i _ _ =>
  if i = 0 then FVal.fin (1 + 8/100000)
  else if i = 3 then FVal.fin (-(8/100000))
  else FVal.fin 0

/-- C6, counterexample: the three failure modes of `validate_state` all raise
the *same* single exception value (no three distinct error kinds), and
`stNegTiny` — finite, conserved, with no entry below -1e-4 — nevertheless
raises (its entry -8e-5 rounds negative at four decimals). -/
theorem C6_counterexample :
    validate_state cVal 1 1 stNonfinite = .error .mk ∧
    validate_state cVal 1 1 stBadN = .error .mk ∧
    validate_state cVal 1 1 stNegTiny = .error .mk ∧
    (∀ i < n_compartments cVal, ∀ a < 1, ∀ j < 1, (stNegTiny i a j).isFinite = true) ∧
    (∀ a < 1, ∀ j < 1, |sumN_F cVal stNegTiny a j - 1| ≤ 1/200) ∧
    (∀ i < n_compartments cVal, ∀ a < 1, ∀ j < 1, ¬ (stNegTiny i a j).toQ < -(1/10000)) := by
  have hN : N_indices cVal = [0, 1, 2, 5, 6, 7, 8, 9] := by decide
  have hn : n_compartments cVal = 10 := by decide
  have hsum : sumN_F cVal stNegTiny 0 0 = 1 + 8/100000 := by
    rw [sumN_F, hN]
    norm_num [stNegTiny, FVal.toQ]
  have hfin : ∀ i < n_compartments cVal, ∀ a < 1, ∀ j < 1,
      (stNegTiny i a j).isFinite = true := by
    intro i _ a _ j _
    rw [stNegTiny]
    split_ifs <;> rfl
  have hB : ∀ a < 1, ∀ j < 1, |sumN_F cVal stNegTiny a j - 1| ≤ 1/200 := by
    intro a ha j hj
    interval_cases a
    interval_cases j
    rw [hsum]
    rw [abs_le]
    norm_num
  refine ⟨?_, ?_, ?_, hfin, hB, ?_⟩
  · refine validate_state_error_of_not_ok _ _ _ _ ?_
    rw [validate_state_ok_iff]
    rintro ⟨hA, _, _⟩
    have := hA 0 (by rw [hn]; norm_num) 0 (by norm_num) 0 (by norm_num)
    simp [stNonfinite, FVal.isFinite] at this
  · refine validate_state_error_of_not_ok _ _ _ _ ?_
    rw [validate_state_ok_iff]
    rintro ⟨_, hB', _⟩
    have := hB' 0 (by norm_num) 0 (by norm_num)
    rw [show sumN_F cVal stBadN 0 0 = 0 by rw [sumN_F, hN]; norm_num [stBadN, FVal.toQ]] at this
    rw [abs_le] at this
    norm_num at this
  · refine validate_state_error_of_not_ok _ _ _ _ ?_
    rw [validate_state_ok_iff]
    rintro ⟨_, _, hC⟩
    have := hC 3 (by rw [hn]; norm_num) 0 (by norm_num) 0 (by norm_num)
    norm_num [stNegTiny, FVal.toQ] at this
  · intro i hi a ha j hj
    interval_cases a
    interval_cases j
    rw [stNegTiny]
    split_ifs <;> norm_num [FVal.toQ]

/-- C6 (amended): `validate_state` checks, in order, finiteness, conserved
sums (round-half-even at two decimals equal to 1, i.e. within 5e-3 of 1),
and nonnegativity (round-half-even at four decimals nonnegative, i.e. at
least -5e-5) — raising the *single* exception kind
`StateValidationException` on any failure and nothing otherwise. -/
theorem C6_validate_characterization (c : Consts) (nA nJ : ℕ) (st : StF) :
    (validate_state c nA nJ st = .ok () ↔
      ((∀ i < n_compartments c, ∀ a < nA, ∀ j < nJ, (st i a j).isFinite = true) ∧
       (∀ a < nA, ∀ j < nJ, |sumN_F c st a j - 1| ≤ 1/200) ∧
       (∀ i < n_compartments c, ∀ a < nA, ∀ j < nJ, -(1/20000) ≤ (st i a j).toQ))) ∧
    (validate_state c nA nJ st = .ok () ∨
      validate_state c nA nJ st = .error .mk) :=
  ⟨validate_state_ok_iff c nA nJ st, validate_state_cases c nA nJ st⟩

/-! ## Spatial aggregation (`bucky/model/data.py`, `buckyData.sum_adm1`)

Arrays indexed by fine (adm2) region are modelled as lists over an additive
commutative monoid (the code is dtype-generic).  `xp.scatter_add` lives in
`bucky.numerical_libs`, which is not under `src/`. -/

/-- The in-place accumulation loop of a scatter-add: for each (index, value)
pair in order, add the value into the output slot at the index. -/
def scatterList {M : Type} [AddCommMonoid M] : List M → List (ℕ × M) → List M
  | out, [] => out
  | out, (i, v) :: rest => scatterList (out.set i (out.getD i 0 + v)) rest

/-- Modelled from the spec: the backend primitive `xp.scatter_add(out, idx,
vals)` (`bucky/numerical_libs.py` is not under `src/`).  Per the spec's
glossary, a scatter-add accumulates values that share a coarse index, i.e.
index and value lists are consumed pairwise; mismatched lengths or an index
outside the output are a backend broadcast/index error. -/
def scatter_add {M : Type} [AddCommMonoid M] (out : List M) (idx : List ℕ) (vals : List M) :
    Except String (List M) :=
  if idx.length = vals.length ∧ ∀ i ∈ idx, i < out.length then
    .ok (scatterList out (idx.zip vals))
  else .error "scatter_add: operands could not be broadcast together"

/-- numpy boolean indexing `l[m]`. -/
def boolMask {α : Type} (l : List α) (m : List Bool) : List α :=
  ((l.zip m).filter (fun p => p.2)).map Prod.fst

/-- `buckyData.sum_adm1`: allocate a zero output of length
`adm_mapping.n_adm1`, select the id list (masked ids when a mask is given —
the array itself is *not* masked: `adm2_arr = adm2_arr[mask]` is commented
out in the source), then scatter-add.  The `cache=True` path calls the same
scatter-add through a memoisation layer. -/
def sum_adm1 {M : Type} [AddCommMonoid M] (n_adm1 : ℕ) (adm1_ids : List ℕ)
    (adm2_arr : List M) (mask : Option (List Bool)) : Except String (List M) :=
  let out : List M := List.replicate n_adm1 0
  let ids := match mask with
    | none => adm1_ids
    | some m => boolMask adm1_ids m
  scatter_add out ids adm2_arr

/-- The direct group-by sum the spec cross-checks against: sum of the values
of all fine regions mapping to coarse id `c`. -/
def groupSum {M : Type} [AddCommMonoid M] (ids : List ℕ) (arr : List M) (c : ℕ) : M :=
  (((ids.zip arr).filter (fun p => p.1 = c)).map Prod.snd).sum

/-- Scatter accumulation preserves the output length. -/
theorem scatterList_length {M : Type} [AddCommMonoid M] (ps : List (ℕ × M)) (out : List M) :
    (scatterList out ps).length = out.length := by
  induction ps generalizing out with
  | nil => rfl
  | cons hd tl ih =>
    obtain ⟨i, v⟩ := hd
    rw [scatterList, ih, List.length_set]

/-- Each output slot of a scatter accumulation holds its initial value plus
the sum of all values scattered to its index (order-independent by
commutativity). -/
theorem scatterList_getD {M : Type} [AddCommMonoid M] (ps : List (ℕ × M)) (out : List M)
    (c : ℕ) (hb : ∀ p ∈ ps, p.1 < out.length) :
    (scatterList out ps).getD c 0 =
      out.getD c 0 + ((ps.filter (fun p => p.1 = c)).map Prod.snd).sum := by
  induction ps generalizing out with
  | nil => simp [scatterList]
  | cons hd tl ih =>
    obtain ⟨i, v⟩ := hd
    have hi : i < out.length := hb (i, v) (by simp)
    have hb' : ∀ p ∈ tl, p.1 < (out.set i (out.getD i 0 + v)).length := by
      intro p hp
      rw [List.length_set]
      exact hb p (List.mem_cons_of_mem _ hp)
    rw [scatterList, ih _ hb']
    by_cases hic : i = c
    · subst hic
      rw [List.filter_cons_of_pos (by simp)]
      simp only [List.map_cons, List.sum_cons]
      rw [List.getD_eq_getElem?_getD, List.getElem?_set_self (by omega),
        List.getD_eq_getElem?_getD]
      simp only [List.getElem?_eq_getElem hi, Option.getD_some]
      rw [add_assoc]
    · rw [List.filter_cons_of_neg (by simp [hic])]
      rw [List.getD_eq_getElem?_getD, List.getElem?_set_ne (by omega),
        ← List.getD_eq_getElem?_getD]

/-- C7: without a mask, `sum_adm1` of any fine-indexed array over any
id mapping produces the length-`n_adm1` array of per-coarse-id group sums
(zero where no fine region contributes); with a mask, the code errors out —
masked ids are paired with the *unmasked* array (see counter-instance with
`mask = [true, false]`), instead of restricting the sum as claimed. -/
theorem C7_sum_adm1 (n_adm1 : ℕ) (ids : List ℕ) (arr : List ℤ)
    (hlen : ids.length = arr.length) (hbound : ∀ i ∈ ids, i < n_adm1) :
    sum_adm1 n_adm1 ids arr none = .ok ((List.range n_adm1).map (groupSum ids arr)) ∧
    sum_adm1 2 [0, 1] ([3, 5] : List ℤ) (some [true, false]) =
      .error "scatter_add: operands could not be broadcast together" := by
  constructor
  · rw [sum_adm1, scatter_add, if_pos ⟨hlen, by simpa using hbound⟩]
    congr 1
    have hL : (scatterList (List.replicate n_adm1 (0 : ℤ)) (ids.zip arr)).length = n_adm1 := by
      rw [scatterList_length, List.length_replicate]
    apply List.ext_getElem
    · rw [hL, List.length_map, List.length_range]
    · intro c hc hc'
      rw [← List.getD_eq_getElem _ 0, ← List.getD_eq_getElem _ 0]
      rw [List.getD_eq_getElem?_getD (((List.range n_adm1).map (groupSum ids arr))) c]
      rw [List.getElem?_map]
      rw [List.getElem?_range (by simpa using hc')]
      simp only [Option.map_some', Option.getD_some]
      rw [scatterList_getD _ _ _ ?hb, List.getD_eq_getElem?_getD (List.replicate n_adm1 0),
        List.getElem?_getD_replicate_default_eq, zero_add, groupSum]
      case hb =>
        intro p hp
        rw [List.length_replicate]
        exact hbound p.1 ((List.of_mem_zip hp).1)
  · rfl

/-- Witness for C7 at a concrete mapping: three fine regions, two coarse. -/
theorem C7_sum_adm1_witness :
    (([0, 1, 0] : List ℕ).length = ([3, 5, 7] : List ℤ).length ∧
      ∀ i ∈ ([0, 1, 0] : List ℕ), i < 2) ∧
    (sum_adm1 2 [0, 1, 0] ([3, 5, 7] : List ℤ) none =
        .ok ((List.range 2).map (groupSum [0, 1, 0] [3, 5, 7])) ∧
      sum_adm1 2 [0, 1] ([3, 5] : List ℤ) (some [true, false]) =
        .error "scatter_add: operands could not be broadcast together") :=
  ⟨by decide, C7_sum_adm1 2 [0, 1, 0] [3, 5, 7] (by decide) (by decide)⟩

/-! ## Rolling means (`bucky/graph.py`)

Time series carry real (or any characteristic-zero field) entries; a 2-D
array is a rectangular list of rows.  numpy's `convolve(·, ·, "valid")` and
`swapaxes` are written out explicitly. -/

/-- One output coefficient of numpy `convolve(a, v, mode="valid")`: the
window `v` is reversed and slid over `a`. -/
def convAt {α : Type} [Field α] (a v : List α) (k : ℕ) : α :=
  ((List.range v.length).map (fun j => a.getD (k + j) 0 * v.getD (v.length - 1 - j) 0)).sum

/-- numpy `convolve(a, v, mode="valid")` for `v.length ≤ a.length`: output
length `a.length - v.length + 1`. -/
def convValid {α : Type} [Field α] (a v : List α) : List α :=
  (List.range (a.length - v.length + 1)).map (convAt a v)

/-- The window of `rolling_arithmetic_mean`: `ones(w)/w` when `weights` is
`None`, else `weights / sum(weights)`. -/
def meanWindow {α : Type} [Field α] (w : ℕ) (weights : Option (List α)) : List α :=
  match weights with
  | none => List.replicate w ((1 : α) / w)
  | some ws => ws.map (fun x => x / ws.sum)

/-- numpy `swapaxes(arr, 0, -1)` on a rectangular 2-D array: transpose (the
column count is the first row's length; entries are in range on rectangular
input, so the `getD` default is never consulted). -/
def swapAxes {α : Type} [Field α] (arr : List (List α)) : List (List α) :=
  (List.range (arr.headD []).length).map (fun j => arr.map (fun r => r.getD j 0))

/-- `swapaxes(arr, axis, -1)` for a 2-D array: transpose when `axis = 0`,
identity when `axis` is already the last axis. -/
def swapToLast {α : Type} [Field α] (axis : ℕ) (arr : List (List α)) : List (List α) :=
  if axis = 0 then swapAxes arr else arr

/-- `graph.rolling_arithmetic_mean` on a 2-D array: swap the chosen axis
last, convolve each row with the normalised window ("valid" mode), swap
back.  (On 2-D input the source's `reshape(-1, n)` and in-loop
`reshape(shp)` are identities.) -/
def rolling_arithmetic_mean {α : Type} [Field α] (arr : List (List α)) (w : ℕ) (axis : ℕ)
    (weights : Option (List α)) : List (List α) :=
  swapToLast axis ((swapToLast axis arr).map (fun row => convValid row (meanWindow w weights)))

/-- `graph.rolling_arithmetic_mean` on a 1-D array: `reshape(-1, n)` leaves a
single row, and the loop's only iteration assigns the whole "valid"
convolution (length `n - w + 1`) into the scalar slot `rolling_arr[0]`;
numpy accepts that only when the assigned array has length 1, otherwise it
raises ("setting an array element with a sequence"). -/
def rolling_arithmetic_mean_1d {α : Type} [Field α] (a : List α) (w : ℕ)
    (weights : Option (List α)) : Except String (List α) :=
  let c := convValid a (meanWindow w weights)
  if c.length = 1 then .ok c else .error "setting an array element with a sequence"

/-- The per-row body of `rolling_geometric_mean`'s loop:
`((-1)**n_neg)**(1/window) * exp(convolve(log_abs, window, "valid"))`, where
`log_abs` is `log |x|` overwritten with -1000 wherever `|x| < 1.0`, and
`n_neg` is the per-window count of negative entries
(`convolve(1.0 * neg_mask, ones(w), "valid")`). -/
noncomputable def gmeanRow (row : List ℝ) (w : ℕ) : List ℝ :=
  let window : List ℝ := List.replicate w ((1 : ℝ) / w)
  let log_abs := row.map (fun x => if |x| < 1 then (-1000 : ℝ) else Real.log |x|)
  let neg_mask := row.map (fun x => if x < 0 then (1 : ℝ) else 0)
  (List.range (row.length - w + 1)).map (fun k =>
    (((-1 : ℝ) ^ (convAt neg_mask (List.replicate w (1 : ℝ)) k)) ^ ((1 : ℝ) / w)) *
      Real.exp (convAt log_abs window k))

/-- `graph.rolling_geometric_mean` on a 2-D array: weighted input raises
`NotImplementedError`; otherwise swap the chosen axis last, apply the
log-domain loop body to each row, swap back. -/
noncomputable def rolling_geometric_mean (arr : List (List ℝ)) (w : ℕ) (axis : ℕ)
    (weights : Option (List ℝ)) : Except String (List (List ℝ)) :=
  match weights with
  | some _ => .error "NotImplementedError"
  | none => .ok (swapToLast axis ((swapToLast axis arr).map (fun row => gmeanRow row w)))

/-- `graph.rolling_mean` dispatch on a 1-D series: arithmetic and geometric
hit the scalar-slot assignment above, harmonic raises `NotImplementedError`,
any other kind raises `RuntimeError`. -/
noncomputable def rolling_mean_1d (a : List ℝ) (w : ℕ) (weights : Option (List ℝ))
    (mean_type : String) : Except String (List ℝ) :=
  if mean_type = "arithmetic" then rolling_arithmetic_mean_1d a w weights
  else if mean_type = "geometric" then
    match weights with
    | some _ => .error "NotImplementedError"
    | none =>
      let c := gmeanRow a w
      if c.length = 1 then .ok c else .error "setting an array element with a sequence"
  else if mean_type = "harmonic" then .error "NotImplementedError"
  else .error "RuntimeError"

/-- The valid convolution of a constant series with the uniform window is
the constant shortened by `w - 1`. -/
theorem convValid_replicate {α : Type} [Field α] [CharZero α] (n w : ℕ) (v : α)
    (hw : 1 ≤ w) (hn : w ≤ n) :
    convValid (List.replicate n v) (meanWindow w none) = List.replicate (n - w + 1) v := by
  have hlen : (meanWindow w (none : Option (List α))).length = w := by
    rw [meanWindow, List.length_replicate]
  rw [convValid, List.length_replicate, hlen]
  have hpt : ∀ k ∈ List.range (n - w + 1), convAt (List.replicate n v) (meanWindow w none) k = v := by
    intro k hk
    rw [List.mem_range] at hk
    rw [convAt, hlen]
    have hone : ∀ j ∈ List.range w,
        (List.replicate n v).getD (k + j) 0 * (meanWindow w (none : Option (List α))).getD (w - 1 - j) 0 =
          v * ((1 : α) / w) := by
      intro j hj
      rw [List.mem_range] at hj
      rw [meanWindow]
      rw [List.getD_eq_getElem?_getD, List.getElem?_replicate, if_pos (by omega),
        Option.getD_some]
      rw [List.getD_eq_getElem?_getD, List.getElem?_replicate, if_pos (by omega),
        Option.getD_some]
    rw [List.map_congr_left hone, List.map_const', List.length_range, List.sum_replicate]
    have hw0 : (w : α) ≠ 0 := Nat.cast_ne_zero.mpr (by omega)
    rw [nsmul_eq_mul]
    field_simp
  rw [List.map_congr_left hpt, List.map_const', List.length_range]

/-- Transposing a constant rectangular array swaps its dimensions. -/
theorem swapAxes_replicate_replicate {α : Type} [Field α] (m n : ℕ) (v : α) (hm : 1 ≤ m) :
    swapAxes (List.replicate m (List.replicate n v)) =
      List.replicate n (List.replicate m v) := by
  obtain ⟨m', rfl⟩ : ∃ m', m = m' + 1 := ⟨m - 1, by omega⟩
  rw [swapAxes]
  have hhead : ((List.replicate (m' + 1) (List.replicate n v)).headD []).length = n := by
    rw [List.replicate_succ, List.headD_cons, List.length_replicate]
  rw [hhead]
  have hpt : ∀ j ∈ List.range n,
      (List.replicate (m' + 1) (List.replicate n v)).map (fun r => r.getD j 0) =
        List.replicate (m' + 1) v := by
    intro j hj
    rw [List.mem_range] at hj
    rw [List.map_replicate]
    congr 1
    rw [List.getD_eq_getElem?_getD, List.getElem?_replicate, if_pos hj, Option.getD_some]
  rw [List.map_congr_left hpt, List.map_const', List.length_range]

/-- C9: the rolling arithmetic mean (default uniform weights) of a constant
2-D array of value `v`, over any window not exceeding the length along the
chosen axis, is the constant `v` everywhere, with that axis shortened to
`length - window + 1`. -/
theorem C9_rolling_mean_constant (v : ℝ) (m n w axis : ℕ)
    (haxis : axis = 0 ∨ axis = 1) (hw : 1 ≤ w)
    (hwle : w ≤ (if axis = 0 then m else n)) (hn : 1 ≤ n) :
    rolling_arithmetic_mean (List.replicate m (List.replicate n v)) w axis none =
      if axis = 0 then List.replicate (m - w + 1) (List.replicate n v)
      else List.replicate m (List.replicate (n - w + 1) v) := by
  rcases haxis with rfl | rfl
  · rw [if_pos rfl] at hwle ⊢
    have hm : 1 ≤ m := le_trans hw hwle
    rw [rolling_arithmetic_mean, swapToLast, if_pos rfl, swapToLast, if_pos rfl]
    rw [swapAxes_replicate_replicate m n v hm, List.map_replicate]
    rw [convValid_replicate m w v hw hwle]
    rw [swapAxes_replicate_replicate n (m - w + 1) v hn]
  · rw [if_neg one_ne_zero] at hwle ⊢
    rw [rolling_arithmetic_mean, swapToLast, if_neg one_ne_zero, swapToLast,
      if_neg one_ne_zero]
    rw [List.map_replicate, convValid_replicate n w v hw hwle]

/-- Witness for C9: a constant 2×3 array, window 2, along axis 0. -/
theorem C9_rolling_mean_constant_witness :
    ((0 : ℕ) = 0 ∨ (0 : ℕ) = 1) ∧ 1 ≤ 2 ∧ (2 ≤ if (0 : ℕ) = 0 then 2 else 3) ∧ 1 ≤ 3 ∧
    rolling_arithmetic_mean (List.replicate 2 (List.replicate 3 (5 : ℝ))) 2 0 none =
      (if (0 : ℕ) = 0 then List.replicate (2 - 2 + 1) (List.replicate 3 (5 : ℝ))
       else List.replicate 2 (List.replicate (3 - 2 + 1) (5 : ℝ))) :=
  ⟨by decide, by decide, by decide, by decide,
    C9_rolling_mean_constant 5 2 3 2 0 (by decide) (by decide) (by decide) (by decide)⟩

/-- C10: the arithmetic rolling mean is total only on 2-D input: on the 1-D
series `[1, ..., 8]` (length `8 = 7 + 1` exceeding the window 7), the
arithmetic branch of `rolling_mean` raises instead of returning the
length-2 smoothed series. -/
theorem C10_rolling_mean_1d_error :
    ([(1 : ℝ), 2, 3, 4, 5, 6, 7, 8].length = 7 + 1) ∧
    rolling_mean_1d [(1 : ℝ), 2, 3, 4, 5, 6, 7, 8] 7 none "arithmetic" =
      .error "setting an array element with a sequence" := by
  constructor
  · rfl
  · rfl

/-- On a series with all entries ≥ 1 (at or above the magnitude-floor 1.0 of
the `log` clamp), the per-row geometric-mean body is exactly
`exp ∘ (valid convolution of the elementwise log with the uniform window)`:
the clamp never fires and the sign factor is `((-1)^0)^(1/w) = 1`. -/
theorem gmeanRow_eq_exp_conv_log (row : List ℝ) (w : ℕ) (hpos : ∀ x ∈ row, 1 ≤ x) :
    gmeanRow row w = (convValid (row.map Real.log) (meanWindow w none)).map Real.exp := by
  have hlogabs : row.map (fun x => if |x| < 1 then (-1000 : ℝ) else Real.log |x|) =
      row.map Real.log := by
    apply List.map_congr_left
    intro x hx
    have h1 : (1 : ℝ) ≤ x := hpos x hx
    rw [abs_of_nonneg (by linarith), if_neg (by linarith)]
  have hneg : ∀ v : List ℝ, ∀ k : ℕ,
      convAt (row.map (fun x => if x < 0 then (1 : ℝ) else 0)) v k = 0 := by
    intro v k
    rw [convAt]
    have hz : ∀ j ∈ List.range v.length,
        (row.map (fun x => if x < 0 then (1 : ℝ) else 0)).getD (k + j) 0 *
          v.getD (v.length - 1 - j) 0 = 0 := by
      intro j _
      have hz0 : (row.map (fun x => if x < 0 then (1 : ℝ) else 0)).getD (k + j) 0 = 0 := by
        rw [List.getD_eq_getElem?_getD]
        rcases h : (row.map (fun x => if x < 0 then (1 : ℝ) else 0))[k + j]? with _ | y
        · rfl
        · rw [List.getElem?_map] at h
          rcases h2 : row[k + j]? with _ | x
          · rw [h2] at h
            cases h
          · rw [h2] at h
            have hx : x ∈ row := by
              have := List.getElem?_eq_some_iff.mp h2
              obtain ⟨hlt, heq⟩ := this
              exact heq ▸ List.getElem_mem hlt
            have h1 : (1 : ℝ) ≤ x := hpos x hx
            simp only [Option.map_some'] at h
            rw [Option.getD_some, ← Option.some.injEq .. |>.mp h]
            rw [if_neg (by linarith)]
      rw [hz0, zero_mul]
    rw [List.map_congr_left hz, List.map_const', List.sum_replicate, smul_zero]
  rw [gmeanRow, convValid, List.length_map]
  have hwin : (meanWindow w (none : Option (List ℝ))).length = w := by
    rw [meanWindow, List.length_replicate]
  rw [hwin, List.map_map]
  apply List.map_congr_left
  intro k _
  simp only [Function.comp]
  rw [hlogabs, hneg (List.replicate w (1 : ℝ)) k, Real.rpow_zero, Real.one_rpow, one_mul]
  rfl

/-- For rectangular arrays, transposition commutes with an elementwise map. -/
theorem swapAxes_map_map {α : Type} [Field α] (f : α → α) (arr : List (List α)) (n : ℕ)
    (hrect : ∀ r ∈ arr, r.length = n) :
    swapAxes (arr.map (List.map f)) = (swapAxes arr).map (List.map f) := by
  rcases arr with _ | ⟨r, rest⟩
  · rfl
  · have hhead : (((r :: rest).map (List.map f)).headD []).length = r.length := by
      rw [List.map_cons, List.headD_cons, List.length_map]
    rw [swapAxes, swapAxes, hhead, List.headD_cons, List.map_map]
    apply List.map_congr_left
    intro j hj
    rw [List.mem_range] at hj
    have hjn : j < n := by
      rw [← hrect r (by simp)]
      exact hj
    simp only [Function.comp]
    rw [List.map_map, List.map_map]
    apply List.map_congr_left
    intro s hs
    have hsn : s.length = n := hrect s hs
    simp only [Function.comp]
    rw [List.getD_eq_getElem?_getD, List.getElem?_map, List.getD_eq_getElem?_getD]
    rw [List.getElem?_eq_getElem (by omega : j < s.length)]
    rfl

/-- Entries of a transposed rectangular array are entries of the original. -/
theorem mem_swapAxes_mem {α : Type} [Field α] (arr : List (List α)) (n : ℕ)
    (hrect : ∀ r ∈ arr, r.length = n) (row : List α) (hrow : row ∈ swapAxes arr)
    (x : α) (hx : x ∈ row) : ∃ r ∈ arr, x ∈ r := by
  rw [swapAxes] at hrow
  obtain ⟨j, hj, rfl⟩ := List.mem_map.mp hrow
  rw [List.mem_range] at hj
  obtain ⟨r, hr, rfl⟩ := List.mem_map.mp hx
  refine ⟨r, hr, ?_⟩
  rcases arr with _ | ⟨a, rest⟩
  · cases hr
  · rw [List.headD_cons, hrect a (by simp)] at hj
    have hjn : j < r.length := by
      rw [hrect r hr]
      exact hj
    rw [List.getD_eq_getElem?_getD, List.getElem?_eq_getElem hjn, Option.getD_some]
    exact List.getElem_mem hjn

/-- C5, counterexample to the claim as stated: for the all-positive series
`[1/2]` (window 1), the rolling geometric mean is `exp(-1000)` — the log
clamp fires for every magnitude below 1.0, not just near 0 — while
`exp(rolling_arithmetic_mean(log(series)))` is `1/2`. -/
theorem C5_counterexample :
    (∀ r ∈ [[(1/2 : ℝ)]], ∀ x ∈ r, 0 < x) ∧
    rolling_geometric_mean [[(1/2 : ℝ)]] 1 1 none ≠
      .ok ((rolling_arithmetic_mean ([[(1/2 : ℝ)]].map (List.map Real.log)) 1 1 none).map
        (List.map Real.exp)) := by
  constructor
  · intro r hr x hx
    rw [List.mem_singleton] at hr
    subst hr
    rw [List.mem_singleton] at hx
    subst hx
    norm_num
  · have hexp : Real.exp (-1000) < 1/2 := by
      have h1 : Real.exp (-1000 : ℝ) ≤ Real.exp (-1) := by
        apply Real.exp_le_exp.mpr
        norm_num
      have h2 : (2 : ℝ) < Real.exp 1 := by
        have := Real.exp_one_gt_d9
        linarith
      have h3 : Real.exp (-1) < 1/2 := by
        rw [Real.exp_neg]
        rw [show (1:ℝ)/2 = 2⁻¹ by norm_num]
        exact inv_strictAnti₀ (by norm_num) h2
      linarith
    have hL : rolling_geometric_mean [[(1/2 : ℝ)]] 1 1 none =
        .ok [[Real.exp (-1000)]] := by
      rw [rolling_geometric_mean]
      norm_num [swapToLast, gmeanRow, convAt, List.range_succ,
        abs_of_nonneg (by norm_num : (0:ℝ) ≤ 1/2), Real.rpow_zero, Real.one_rpow]
    have hR : ((rolling_arithmetic_mean ([[(1/2 : ℝ)]].map (List.map Real.log)) 1 1
        none).map (List.map Real.exp)) = [[(1/2 : ℝ)]] := by
      rw [rolling_arithmetic_mean]
      norm_num [swapToLast, convValid, convAt, meanWindow, List.range_succ,
        Real.exp_log (by norm_num : (0:ℝ) < 1/2)]
    rw [hL, hR]
    simp only [ne_eq, Except.ok.injEq, List.cons.injEq, and_true]
    intro h
    rw [h] at hexp
    linarith

/-- Rowwise form of the geometric/arithmetic bridge on a batch of series. -/
theorem map_gmean_eq (S : List (List ℝ)) (w : ℕ)
    (hge : ∀ row ∈ S, ∀ x ∈ row, 1 ≤ x) :
    S.map (fun row => gmeanRow row w) =
      (S.map (fun row => convValid (row.map Real.log) (meanWindow w none))).map
        (List.map Real.exp) := by
  rw [List.map_map]
  apply List.map_congr_left
  intro row h
  simp only [Function.comp]
  exact gmeanRow_eq_exp_conv_log row w (hge row h)

/-- C5 (amended): for every rectangular 2-D batch of series whose entries
are all at least 1 (the magnitude floor of the log clamp) and either axis,
the rolling geometric mean equals `exp` applied elementwise to the rolling
arithmetic mean (default uniform weights) of the elementwise `log`. -/
theorem C5_geometric_exp_log (arr : List (List ℝ)) (w axis n : ℕ)
    (haxis : axis = 0 ∨ axis = 1) (hrect : ∀ r ∈ arr, r.length = n)
    (hpos : ∀ r ∈ arr, ∀ x ∈ r, 1 ≤ x) :
    rolling_geometric_mean arr w axis none =
      .ok ((rolling_arithmetic_mean (arr.map (List.map Real.log)) w axis none).map
        (List.map Real.exp)) := by
  have hwinlen : (meanWindow w (none : Option (List ℝ))).length = w := by
    rw [meanWindow, List.length_replicate]
  rcases haxis with rfl | rfl
  · rw [rolling_geometric_mean, rolling_arithmetic_mean]
    simp only [swapToLast, eq_self_iff_true, if_true]
    congr 1
    have hrowlen : ∀ row ∈ swapAxes arr, row.length = arr.length := by
      intro row h
      rw [swapAxes] at h
      obtain ⟨j, _, rfl⟩ := List.mem_map.mp h
      exact List.length_map ..
    have hge : ∀ row ∈ swapAxes arr, ∀ x ∈ row, 1 ≤ x := by
      intro row h x hx
      obtain ⟨r, hr, hxr⟩ := mem_swapAxes_mem arr n hrect row h x hx
      exact hpos r hr x hxr
    rw [swapAxes_map_map Real.log arr n hrect, List.map_map]
    rw [show ((fun row => convValid row (meanWindow w none)) ∘ List.map Real.log) =
      (fun row => convValid (List.map Real.log row) (meanWindow w none)) from rfl]
    rw [map_gmean_eq (swapAxes arr) w hge]
    rw [swapAxes_map_map Real.exp
      ((swapAxes arr).map (fun row => convValid (List.map Real.log row) (meanWindow w none)))
      (arr.length - w + 1) ?rect]
    case rect =>
      intro r hr
      obtain ⟨row, hrow, rfl⟩ := List.mem_map.mp hr
      rw [convValid, List.length_map, List.length_range, List.length_map, hwinlen,
        hrowlen row hrow]
  · rw [rolling_geometric_mean, rolling_arithmetic_mean]
    simp only [swapToLast, if_neg one_ne_zero]
    congr 1
    rw [List.map_map, List.map_map]
    apply List.map_congr_left
    intro row hrow
    simp only [Function.comp]
    exact gmeanRow_eq_exp_conv_log row w (hpos row hrow)

/-- Witness for C5 (amended) on the 1×2 batch `[[1, 2]]`, window 2, axis 1. -/
theorem C5_geometric_exp_log_witness :
    (((1 : ℕ) = 0 ∨ (1 : ℕ) = 1) ∧ (∀ r ∈ [[(1 : ℝ), 2]], r.length = 2) ∧
      (∀ r ∈ [[(1 : ℝ), 2]], ∀ x ∈ r, 1 ≤ x)) ∧
    rolling_geometric_mean [[(1 : ℝ), 2]] 2 1 none =
      .ok ((rolling_arithmetic_mean ([[(1 : ℝ), 2]].map (List.map Real.log)) 2 1 none).map
        (List.map Real.exp)) :=
  ⟨⟨Or.inr rfl, by simp, by
      intro r hr x hx
      rw [List.mem_singleton] at hr
      subst hr
      simp only [List.mem_cons, List.mem_singleton, List.not_mem_nil, or_false] at hx
      rcases hx with rfl | rfl <;> norm_num⟩,
    C5_geometric_exp_log [[(1 : ℝ), 2]] 2 1 2 (Or.inr rfl) (by simp)
      (by
        intro r hr x hx
        rw [List.mem_singleton] at hr
        subst hr
        simp only [List.mem_cons, List.mem_singleton, List.not_mem_nil, or_false] at hx
        rcases hx with rfl | rfl <;> norm_num)⟩

/-! ## Parameter trees and the sampler (`bucky/config.py`)

`BuckyConfig` extends `NestedDict` (`bucky/util/nested_dict.py`, not under
`src/`), an ordered string-keyed nested mapping with a filtered traversal
`apply(f, copy=..., contains_filter=...)`.  The traversal is modelled from
the spec ("four ordered passes over the tree, each visiting only nodes
matching a structural filter"): `f` is applied to every sub-dict containing
all filter keys (top-down, matching nodes replaced wholesale), or to every
leaf value when no filter is given.  That `apply(..., copy=False)` mutates
the receiver is evidenced inside `src/`: `load_cfg` calls `self._to_arrays()`
for its side effect on `self` and discards the result.

The backend RNG and `interp_extrap` live outside `src/`, so a distribution
draw and an interpolation are recorded symbolically (`CVal.sampled`,
`CVal.interped`), each capturing exactly the arguments the source passes. -/

/-- A numeric payload: python/numpy scalar, 1-D, or 2-D value, exact. -/
inductive NumVal where
  | scal (q : ℚ)
  | vec (l : List ℚ)
  | mat (m : List (List ℚ))
deriving DecidableEq

/-- A leaf value: a string, a plain ("raw") python number/list, a backend
array (`_cast_to_array` turns `raw` into `arr`), a symbolic distribution
draw (namespace, func, kwargs), or a symbolic `interp_extrap` result
(new/old age-bin midpoints and the value interpolated). -/
inductive CVal where
  | str (s : String)
  | raw (v : NumVal)
  | arr (v : NumVal)
  | sampled (ns func : String) (args : List (String × NumVal))
  | interped (xnew xold : NumVal) (y : CVal)
deriving DecidableEq

/-- A nested parameter mapping (`NestedDict`): ordered keyed children with
leaf values at the bottom. -/
inductive PTree where
  | leaf (v : CVal)
  | node (children : List (String × PTree))

/-- Python `d[k]` on one level. -/
def getKey (cs : List (String × PTree)) (k : String) : Option PTree :=
  (cs.find? (fun p => p.1 = k)).map Prod.snd

/-- Python `k in d`. -/
def hasKey (cs : List (String × PTree)) (k : String) : Bool :=
  cs.any (fun p => p.1 = k)

/-- Python `d.pop(k)`'s effect on the dict: drop the key, keep the order of
the remaining keys. -/
def removeKey (cs : List (String × PTree)) (k : String) : List (String × PTree) :=
  cs.filter (fun p => ¬ p.1 = k)

/-- Python `d[k] = t`: overwrite in place (keeping the key's position) or
append a new key. -/
def setKey (cs : List (String × PTree)) (k : String) (t : PTree) :
    List (String × PTree) :=
  if hasKey cs k then cs.map (fun p => if p.1 = k then (k, t) else p)
  else cs ++ [(k, t)]

/-- Path lookup `self["a.b.c"]`. -/
def lookupPath : PTree → List String → Option PTree
  | t, [] => some t
  | .leaf _, _ :: _ => none
  | .node cs, k :: rest =>
    match getKey cs k with
    | none => none
    | some t => lookupPath t rest

/-- The numeric payload of a leaf (`raw` or `arr`); `scal 0` is a junk
default for shapes the claims never exercise (python raises there). -/
def leafNum : Option PTree → NumVal
  | some (.leaf (.raw v)) => v
  | some (.leaf (.arr v)) => v
  | _ => .scal 0

/-- Numeric payload at a path. -/
def lookupNum (t : PTree) (path : List String) : NumVal :=
  leafNum (lookupPath t path)

/-- The keys of the sub-dict at a path (`none` at a leaf / missing path). -/
def keysAt (t : PTree) (path : List String) : Option (List String) :=
  match lookupPath t path with
  | some (.node cs) => some (cs.map Prod.fst)
  | _ => none

/-- The leaf value at a path. -/
def leafAt (t : PTree) (path : List String) : Option CVal :=
  match lookupPath t path with
  | some (.leaf v) => some v
  | _ => none

mutual
/-- Modelled from the spec: `NestedDict.apply(f)` with no filter — rebuild
the tree applying `f` to every leaf value (`nested_dict.py` is not under
`src/`). -/
def applyLeaves (f : CVal → CVal) : PTree → PTree
  | .leaf v => .leaf (f v)
  | .node cs => .node (applyLeavesL f cs)
def applyLeavesL (f : CVal → CVal) :
    List (String × PTree) → List (String × PTree)
  | [] => []
  | (k, t) :: rest => (k, applyLeaves f t) :: applyLeavesL f rest
end

mutual
/-- Modelled from the spec: `NestedDict.apply(f, contains_filter=filt)` —
apply `f` to every sub-dict containing all the filter keys (replacing the
node by `f`'s result), recursing into non-matching nodes. -/
def applyFiltered (filt : List String) (f : List (String × PTree) → PTree) :
    PTree → PTree
  | .leaf v => .leaf v
  | .node cs =>
    if filt.all (fun k => hasKey cs k) then f cs
    else .node (applyFilteredL filt f cs)
def applyFilteredL (filt : List String) (f : List (String × PTree) → PTree) :
    List (String × PTree) → List (String × PTree)
  | [] => []
  | (k, t) :: rest => (k, applyFiltered filt f t) :: applyFilteredL filt f rest
end

/-- The error raised while drawing one distribution node.
`unknownDistribution` is the source's
`ValueError(f"Distribution {func} does not exist!")` (the spec's
`UnknownDistribution`), carrying the offending name; `malformed` stands for
whatever error python raises on a structurally broken node. -/
inductive SampleErr where
  | unknownDistribution (func : String)
  | malformed
deriving DecidableEq

mutual
/-- `NestedDict.apply` with a filter whose visitor can raise: the first
raise aborts the traversal. -/
def applyFilteredE (filt : List String)
    (f : List (String × PTree) → Except SampleErr PTree) :
    PTree → Except SampleErr PTree
  | .leaf v => .ok (.leaf v)
  | .node cs =>
    if filt.all (fun k => hasKey cs k) then f cs
    else do
      let cs' ← applyFilteredEL filt f cs
      return .node cs'
def applyFilteredEL (filt : List String)
    (f : List (String × PTree) → Except SampleErr PTree) :
    List (String × PTree) → Except SampleErr (List (String × PTree))
  | [] => .ok []
  | (k, t) :: rest => do
    let t' ← applyFilteredE filt f t
    let rest' ← applyFilteredEL filt f rest
    return (k, t') :: rest'
end

/-- Elementwise product with numpy scalar broadcasting (`scal 0` junk on the
shape mismatches numpy would reject). -/
def numMul : NumVal → NumVal → NumVal
  | .scal a, .scal b => .scal (a * b)
  | .scal a, .vec l => .vec (l.map (fun x => a * x))
  | .vec l, .scal a => .vec (l.map (fun x => x * a))
  | .vec l, .vec l' => if l.length = l'.length then .vec (l.zipWith (· * ·) l') else .scal 0
  | .scal a, .mat m => .mat (m.map (fun r => r.map (fun x => a * x)))
  | .mat m, .scal a => .mat (m.map (fun r => r.map (fun x => x * a)))
  | _, _ => .scal 0

/-- `xp.abs`, elementwise. -/
def numAbs : NumVal → NumVal
  | .scal a => .scal |a|
  | .vec l => .vec (l.map (fun x => |x|))
  | .mat m => .mat (m.map (fun r => r.map (fun x => |x|)))

/-- `xp.mean(bins, axis=1)`: the per-row means (bin midpoints); non-2-D
input is returned unchanged (junk — the source only feeds 2-D bins). -/
def rowMeans : NumVal → NumVal
  | .mat m => .vec (m.map (fun r => r.sum / r.length))
  | v => v

/-- `_cast_to_array` (`BuckyConfig._to_arrays`): strings pass through,
everything else goes through `xp.array` (a raw value becomes an array; an
array stays an array, and the symbolic values stand for arrays already). -/
def _cast_to_array : CVal → CVal
  | .str s => .str s
  | .raw v => .arr v
  | x => x

/-- `self._to_arrays()`: the leafwise cast over the whole tree. -/
def toArrays (t : PTree) : PTree :=
  applyLeaves _cast_to_array t

/-- Does the `distribution` sub-dict's `func` equal `name`? -/
def distFuncIs (dcs : List (String × PTree)) (name : String) : Bool :=
  match getKey dcs "func" with
  | some (.leaf (.str f)) => f = name
  | _ => false

/-- `_set_reroll_var` (body of `_set_default_variances`): on a node carrying
`distribution`, when `distribution.func == "truncnorm"` and `scale` is not
in `distribution`, set
`distribution.scale = xp.abs(reroll_variance * xp.array(distribution.loc))`. -/
def _set_reroll_var (rv : NumVal) (cs : List (String × PTree)) : PTree :=
  match getKey cs "distribution" with
  | some (.node dcs) =>
    if distFuncIs dcs "truncnorm" && ! hasKey dcs "scale" then
      .node (setKey cs "distribution"
        (.node (setKey dcs "scale"
          (.leaf (.arr (numAbs (numMul rv (leafNum (getKey dcs "loc")))))))))
    else .node cs
  | _ => .node cs

/-- `_set_default_variances` (called with `copy=True` in the sampler): the
reroll coefficient is read from the tree itself at
`model.monte_carlo.reroll_variance`. -/
def set_default_variances (t : PTree) : PTree :=
  applyFiltered ["distribution"]
    (_set_reroll_var (lookupNum t ["model", "monte_carlo", "reroll_variance"])) t

/-- Modelled from the spec: the names exposed by `bucky.util.distributions`
(named parametric distributions; the module is not under `src/`). -/
def distributions_names : List String :=
  ["truncnorm", "truncnorm_from_CI", "approx_mPERT"]

/-- Modelled from the spec: the names exposed by the backend's
random-sampling namespace `xp.random` (not under `src/`). -/
def xp_random_names : List String :=
  ["normal", "uniform", "poisson", "exponential"]

/-- `_sample_distribution`: pop `distribution`, pop `func`, resolve the name
against `util.distributions` first and `xp.random` second, invoke the
resolved sampler with the remaining kwargs (kept symbolic), store the draw
under `value`.  A name found in neither namespace raises the
unknown-distribution `ValueError` carrying the name. -/
def _sample_distribution (cs : List (String × PTree)) : Except SampleErr PTree :=
  match getKey cs "distribution" with
  | some (.node dcs) =>
    match getKey dcs "func" with
    | some (.leaf (.str func)) =>
      let dargs := (removeKey dcs "func").map (fun p => (p.1, leafNum (some p.2)))
      if func ∈ distributions_names then
        .ok (.node (setKey (removeKey cs "distribution") "value"
          (.leaf (.sampled "distributions" func dargs))))
      else if func ∈ xp_random_names then
        .ok (.node (setKey (removeKey cs "distribution") "value"
          (.leaf (.sampled "xp.random" func dargs))))
      else .error (.unknownDistribution func)
    | _ => .error .malformed
  | _ => .error .malformed

/-- `BuckyConfig._age_interp`: identical bin sets return `y` unchanged;
differing shape or values interpolate from old to new bin midpoints
(`interp_extrap` kept symbolic with exactly the midpoint arguments the
source passes). -/
def _age_interp (x_bins_new x_bins : NumVal) (y : CVal) : CVal :=
  if x_bins_new = x_bins then y
  else .interped (rowMeans x_bins_new) (rowMeans x_bins) y

/-- `_interp_one` (body of `interp_age_bins`):
`d["value"] = _age_interp(model_target_bins, d.pop("age_bins"), d["value"])`. -/
def _interp_one (target : NumVal) (cs : List (String × PTree)) : PTree :=
  let oldbins := leafNum (getKey cs "age_bins")
  let y : CVal :=
    match getKey cs "value" with
    | some (.leaf v) => v
    | _ => .str ""
  .node (setKey (removeKey cs "age_bins") "value" (.leaf (_age_interp target oldbins y)))

/-- `interp_age_bins`: visits nodes carrying both `age_bins` and `value`;
the target bins are read from the tree itself at
`model.structure.age_bins`. -/
def interp_age_bins (t : PTree) : PTree :=
  applyFiltered ["age_bins", "value"]
    (_interp_one (lookupNum t ["model", "structure", "age_bins"])) t

/-- `_promote_values`: `d["value"] if len(d) == 1 else d`. -/
def _promote_values (cs : List (String × PTree)) : PTree :=
  if cs.length = 1 then (getKey cs "value").getD (.node cs) else .node cs

/-- `promote_sampled_values`: flatten every single-key `{value: ...}` node. -/
def promote_sampled_values (t : PTree) : PTree :=
  applyFiltered ["value"] _promote_values t

/-- `BuckyConfig.sample_distributions`.  In source order:
`self._to_arrays()` (in place on the input tree), then on a copy:
`_set_default_variances(copy=True)`, the draw pass, `interp_age_bins()`,
`promote_sampled_values()`.  The result pairs the final state of the input
tree (`self`) with the returned tree or the raised error. -/
def sample_distributions (t : PTree) : PTree × Except SampleErr PTree :=
  let self1 := toArrays t
  let ret1 := set_default_variances self1
  match applyFilteredE ["distribution"] _sample_distribution ret1 with
  | .error e => (self1, .error e)
  | .ok ret2 => (self1, .ok (promote_sampled_values (interp_age_bins ret2)))

/-- The pass order the spec claims, written from the spec's words for
comparison: default-variance fill, then age-bin reconciliation, then the
draw pass, then promotion. -/
def sample_distributions_spec_order (t : PTree) : PTree × Except SampleErr PTree :=
  let self1 := toArrays t
  let ret1 := interp_age_bins (set_default_variances self1)
  match applyFilteredE ["distribution"] _sample_distribution ret1 with
  | .error e => (self1, .error e)
  | .ok ret2 => (self1, .ok (promote_sampled_values ret2))

/-- Whichever way the draw pass ends, the input tree (`self`) is left in the
state produced by the in-place `self._to_arrays()` cast. -/
theorem sample_distributions_self (t : PTree) :
    (sample_distributions t).1 = toArrays t := by
  rw [sample_distributions]
  cases applyFilteredE ["distribution"] _sample_distribution
    (set_default_variances (toArrays t)) <;> rfl

/-- The spec-order pipeline also leaves `self` in the cast state. -/
theorem sample_distributions_spec_order_self (t : PTree) :
    (sample_distributions_spec_order t).1 = toArrays t := by
  rw [sample_distributions_spec_order]
  cases applyFilteredE ["distribution"] _sample_distribution
    (interp_age_bins (set_default_variances (toArrays t))) <;> rfl

mutual
/-- No `raw` (not-yet-cast) leaf anywhere in the tree — the state of any
tree that has been through `_to_arrays` (e.g. any `load_cfg` product). -/
def noRaw : PTree → Bool
  | .leaf (.raw _) => false
  | .leaf _ => true
  | .node cs => noRawL cs
def noRawL : List (String × PTree) → Bool
  | [] => true
  | (_, t) :: rest => noRaw t && noRawL rest
end

/-- The in-place cast is the identity on a tree with no raw leaves. -/
theorem toArrays_id_of_noRaw (t : PTree) : noRaw t = true → toArrays t = t := by
  rw [toArrays]
  induction t using PTree.rec
    (motive_2 := fun cs => noRawL cs = true → applyLeavesL _cast_to_array cs = cs)
    (motive_3 := fun p => noRaw p.2 = true → applyLeaves _cast_to_array p.2 = p.2) with
  | leaf v =>
    intro h
    cases v with
    | raw v' => rw [noRaw] at h; cases h
    | str s => rfl
    | arr v' => rfl
    | sampled a b c => rfl
    | interped a b c => rfl
  | node cs ih =>
    intro h
    rw [noRaw] at h
    rw [applyLeaves, ih h]
  | nil => simp [applyLeavesL]
  | cons hd tl ih1 ih2 =>
    rename_i h
    obtain ⟨k, u⟩ := hd
    rw [noRawL, Bool.and_eq_true] at h
    rw [applyLeavesL, ih1 h.1, ih2 h.2]
  | mk k u ih => exact ih (by assumption)

/-- A parameter tree with one plain (raw) numeric leaf. -/
def tRaw : PTree :=
  .node [("p", .node [("value", .leaf (.raw (.scal 1)))])]

/-- C4, counterexample: running the sampler on `tRaw` changes the input tree
in place — its raw leaf has been cast to a backend array afterwards. -/
theorem C4_counterexample : (sample_distributions tRaw).1 ≠ tRaw := by
  intro h
  rw [sample_distributions_self] at h
  have h2 := congrArg (fun u => leafAt u ["p", "value"]) h
  simp [tRaw, toArrays, applyLeaves, applyLeavesL, _cast_to_array, leafAt,
    lookupPath, getKey, List.find?] at h2

/-- C4 (amended): the sampler's only side effect on its input tree is the
in-place `_to_arrays` cast of raw numeric leaves to backend arrays (on
success and on failure alike); on a tree with no raw leaves — e.g. any
`load_cfg` product — the input is left completely unchanged. -/
theorem C4_sampler_input_effect (t : PTree) :
    (sample_distributions t).1 = toArrays t ∧
    (noRaw t = true → (sample_distributions t).1 = t) := by
  refine ⟨sample_distributions_self t, fun h => ?_⟩
  rw [sample_distributions_self, toArrays_id_of_noRaw t h]

/-- An already-cast tree for the C4 witness. -/
def tArr : PTree :=
  .node [("p", .leaf (.arr (.scal 1)))]

/-- Witness for C4 on an already-cast tree. -/
theorem C4_sampler_input_effect_witness :
    noRaw tArr = true ∧ (sample_distributions tArr).1 = tArr :=
  ⟨by rfl, (C4_sampler_input_effect tArr).2 (by rfl)⟩

/-- C8 (amended): resolving a distribution node's `func` tries the named
parametric-distribution namespace first, then the backend's random
namespace; a name in neither makes the draw fail with the
unknown-distribution error carrying the offending name, a name in either
resolves and the node is drawn; and whatever happens the input tree is left
in the cast state (unchanged except raw leaves becoming backend arrays). -/
theorem C8_unknown_distribution (cs dcs : List (String × PTree)) (f : String)
    (hdist : getKey cs "distribution" = some (.node dcs))
    (hfunc : getKey dcs "func" = some (.leaf (.str f))) :
    (f ∉ distributions_names → f ∉ xp_random_names →
      _sample_distribution cs = .error (.unknownDistribution f)) ∧
    (f ∈ distributions_names ∨ f ∈ xp_random_names →
      ∃ t', _sample_distribution cs = .ok t') ∧
    (∀ t : PTree, (sample_distributions t).1 = toArrays t) := by
  refine ⟨?_, ?_, sample_distributions_self⟩
  · intro h1 h2
    simp only [_sample_distribution, hdist, hfunc, if_neg h1, if_neg h2]
  · intro h
    by_cases h1 : f ∈ distributions_names
    · exact ⟨_, by simp only [_sample_distribution, hdist, hfunc, if_pos h1]; rfl⟩
    · have h2 : f ∈ xp_random_names := h.resolve_left h1
      exact ⟨_, by
        simp only [_sample_distribution, hdist, hfunc, if_neg h1, if_pos h2]; rfl⟩

/-- A tree holding a distribution node with an unknown `func` and a raw
leaf elsewhere. -/
def tUnknown : PTree :=
  .node [("p", .node [("distribution", .node [
      ("func", .leaf (.str "not-a-real-distribution")),
      ("loc", .leaf (.raw (.scal 1)))])]),
    ("q", .leaf (.raw (.scal 2)))]

/-- C8, counterexample to the unmodified-input clause: sampling `tUnknown`
raises the unknown-distribution error with the offending name, yet the
input tree is *not* left unmodified — its raw leaves have been cast in
place. -/
theorem C8_counterexample :
    (sample_distributions tUnknown).2 =
      .error (.unknownDistribution "not-a-real-distribution") ∧
    (sample_distributions tUnknown).1 ≠ tUnknown := by
  constructor
  · rfl
  · intro h
    rw [sample_distributions_self] at h
    have h2 := congrArg (fun u => leafAt u ["q"]) h
    simp [tUnknown, toArrays, applyLeaves, applyLeavesL, _cast_to_array, leafAt,
      lookupPath, getKey, List.find?] at h2

/-- Witness for C8's node-level characterization: a node whose distribution
`func` is `"normal"` (present in the backend namespace only). -/
theorem C8_unknown_distribution_witness :
    (getKey [("distribution", PTree.node [("func", PTree.leaf (.str "normal"))])]
        "distribution" = some (.node [("func", PTree.leaf (.str "normal"))]) ∧
      getKey [("func", PTree.leaf (.str "normal"))] "func" =
        some (.leaf (.str "normal")) ∧
      ("normal" ∈ distributions_names ∨ "normal" ∈ xp_random_names)) ∧
    ∃ t', _sample_distribution
      [("distribution", PTree.node [("func", PTree.leaf (.str "normal"))])] = .ok t' :=
  ⟨⟨rfl, rfl, Or.inr (by simp [xp_random_names])⟩,
    (C8_unknown_distribution
        [("distribution", PTree.node [("func", PTree.leaf (.str "normal"))])]
        [("func", PTree.leaf (.str "normal"))] "normal" rfl rfl).2.1
      (Or.inr (by simp [xp_random_names]))⟩

/-- A parameter tree exercising all four sampler passes at once: one
parameter `p` carrying both `age_bins` (authored on bins `B`) and a
`truncnorm` distribution without `scale`, plus the model's global reroll
coefficient and target age bins `T`. -/
def tAge (B T : List (List ℚ)) (loc rv : ℚ) : PTree :=
  .node [("p", .node [
      ("age_bins", .leaf (.raw (.mat B))),
      ("distribution", .node [
        ("func", .leaf (.str "truncnorm")),
        ("loc", .leaf (.raw (.scal loc)))])]),
    ("model", .node [
      ("monte_carlo", .node [("reroll_variance", .leaf (.raw (.scal rv)))]),
      ("structure", .node [("age_bins", .leaf (.raw (.mat T)))])])]

/-- What `sample_distributions` produces on `tAge`: the default variance
`|rv * loc|` is among the *sampled* kwargs (fill before draw), the
interpolation wraps the *drawn* value (draw before age reconciliation), and
the node is promoted to a bare leaf. -/
def tAgeCodeResult (B T : List (List ℚ)) (loc rv : ℚ) : PTree :=
  .node [("p", .leaf (.interped (rowMeans (.mat T)) (rowMeans (.mat B))
      (.sampled "distributions" "truncnorm"
        [("loc", .scal loc), ("scale", .scal |rv * loc|)]))),
    ("model", .node [
      ("monte_carlo", .node [("reroll_variance", .leaf (.arr (.scal rv)))]),
      ("structure", .node [("age_bins", .leaf (.arr (.mat T)))])])]

/-- What the spec's claimed pass order would produce on `tAge`: the age pass
runs before any draw, skips `p` (which has no `value` yet), so `age_bins`
survives uninterpolated next to the later-sampled value and the node is
never promoted. -/
def tAgeSpecResult (B T : List (List ℚ)) (loc rv : ℚ) : PTree :=
  .node [("p", .node [
      ("age_bins", .leaf (.arr (.mat B))),
      ("value", .leaf (.sampled "distributions" "truncnorm"
        [("loc", .scal loc), ("scale", .scal |rv * loc|)]))]),
    ("model", .node [
      ("monte_carlo", .node [("reroll_variance", .leaf (.arr (.scal rv)))]),
      ("structure", .node [("age_bins", .leaf (.arr (.mat T)))])])]

/-- Evaluation of the source pipeline on the `tAge` family. -/
theorem sample_tAge_code (B T : List (List ℚ)) (loc rv : ℚ)
    (hBT : NumVal.mat T ≠ NumVal.mat B) :
    (sample_distributions (tAge B T loc rv)).2 = .ok (tAgeCodeResult B T loc rv) := by
  have hTB : (NumVal.mat T = NumVal.mat B) = False := eq_false hBT
  have hdraw : applyFilteredE ["distribution"] _sample_distribution
      (set_default_variances (toArrays (tAge B T loc rv))) =
      .ok (.node [("p", .node [
          ("age_bins", .leaf (.arr (.mat B))),
          ("value", .leaf (.sampled "distributions" "truncnorm"
            [("loc", .scal loc), ("scale", .scal |rv * loc|)]))]),
        ("model", .node [
          ("monte_carlo", .node [("reroll_variance", .leaf (.arr (.scal rv)))]),
          ("structure", .node [("age_bins", .leaf (.arr (.mat T)))])])]) := by
    simp [tAge, toArrays, applyLeaves, applyLeavesL, _cast_to_array, set_default_variances,
      applyFiltered, applyFilteredL, applyFilteredE, applyFilteredEL, _set_reroll_var,
      distFuncIs, getKey, hasKey, setKey, removeKey, List.find?, List.filter,
      _sample_distribution, distributions_names, leafNum, lookupNum, lookupPath,
      numMul, numAbs, bind, Except.instMonad, Except.bind, pure, Except.pure]
  rw [sample_distributions]
  simp only [hdraw]
  simp [tAgeCodeResult, interp_age_bins, applyFiltered, applyFilteredL, _interp_one,
    _age_interp, promote_sampled_values, _promote_values, getKey, hasKey, setKey,
    removeKey, List.find?, List.filter, leafNum, lookupNum, lookupPath, hTB]

/-- Evaluation of the spec-order pipeline on the `tAge` family (the age pass
finds no node carrying both `age_bins` and `value`, so it is a no-op no
matter what the bins are). -/
theorem sample_tAge_spec (B T : List (List ℚ)) (loc rv : ℚ) :
    (sample_distributions_spec_order (tAge B T loc rv)).2 =
      .ok (tAgeSpecResult B T loc rv) := by
  simp [sample_distributions_spec_order, tAge, tAgeSpecResult, toArrays, applyLeaves,
    applyLeavesL, _cast_to_array, set_default_variances, applyFiltered, applyFilteredL,
    applyFilteredE, applyFilteredEL, _set_reroll_var, distFuncIs, getKey, hasKey, setKey,
    removeKey, List.find?, List.filter, _sample_distribution, distributions_names,
    xp_random_names, leafNum, lookupNum, lookupPath, interp_age_bins, _interp_one,
    _age_interp, promote_sampled_values, _promote_values, numMul, numAbs,
    bind, Except.instMonad, Except.bind, pure, Except.pure]

/-- C3, counterexample: on a node carrying both a distribution and
`age_bins`, the source pipeline and the spec's claimed pass order produce
different trees — so age-bin reconciliation is *not* applied before the
draw. -/
theorem C3_counterexample :
    (sample_distributions (tAge [[0, 10]] [[0, 5]] 1 1)).2 ≠
      (sample_distributions_spec_order (tAge [[0, 10]] [[0, 5]] 1 1)).2 := by
  rw [sample_tAge_code _ _ _ _ (by simp), sample_tAge_spec]
  simp [tAgeCodeResult, tAgeSpecResult]

/-- C3 (amended): the sampler's passes run in the order default-variance
fill, draw, age-bin reconciliation, promotion: on the `tAge` family the
filled `scale = |rv * loc|` appears among the drawn kwargs (fill before
draw), the interpolation wraps the already-drawn value (reconciliation
after draw, on the sampled tree), and the single-key node is then
promoted. -/
theorem C3_pass_order (B T : List (List ℚ)) (loc rv : ℚ)
    (hBT : NumVal.mat T ≠ NumVal.mat B) :
    (sample_distributions (tAge B T loc rv)).2 = .ok (tAgeCodeResult B T loc rv) :=
  sample_tAge_code B T loc rv hBT

/-- Witness for C3 (amended) at concrete bins. -/
theorem C3_pass_order_witness :
    (NumVal.mat [[0, 5]] ≠ NumVal.mat [[0, 10]]) ∧
    (sample_distributions (tAge [[0, 10]] [[0, 5]] 1 1)).2 =
      .ok (tAgeCodeResult [[0, 10]] [[0, 5]] 1 1) :=
  ⟨by simp, C3_pass_order [[0, 10]] [[0, 5]] 1 1 (by simp)⟩

end Bucky
